import Mathlib

/-!
Verification development for the licensure header engine
(src/src/template.rs together with spec-modelled collaborators).

Strings are modelled as lists of characters.  Code under src/ is embedded
faithfully; the modules the repository uses but that are not under src/
(crate::comments, crate::utils::remove_column_wrapping) and the external
regex crate are modelled from the specification, each marked by a doc
comment starting with "Modelled from the spec:".
-/

set_option linter.unusedVariables false

abbrev Str := List Char

def strL (s : String) : Str := s.toList

/-- Embeds struct CopyrightHolder from src/src/template.rs: a name and an optional email. -/
structure CopyrightHolder where
  name : Str
  email : Option Str
deriving DecidableEq

/-- Embeds the Display impl for CopyrightHolder: the name, followed by a space and the email in angle brackets when an email is present. -/
def CopyrightHolder.display (a : CopyrightHolder) : Str :=
  a.name ++ (match a.email with
    | some e => strL " <" ++ e ++ strL ">"
    | none => [])

/-- Embeds struct Authors from src/src/template.rs: an ordered list of copyright holders. -/
structure Authors where
  authors : List CopyrightHolder
deriving DecidableEq

/-- Embeds the Display impl for Authors: a fold that appends ", " before an author exactly when the accumulated string is nonempty, then appends the author's display form. -/
def Authors.display (as : Authors) : Str :=
  as.authors.foldl (fun a au => (if a.isEmpty then a else a ++ strL ", ") ++ au.display) []

/-- Embeds struct Context from src/src/template.rs. -/
structure Context where
  ident : Str
  authors : Authors
  year : Option Str
  unwrap_text : Bool
deriving DecidableEq

/-- Embeds Context::get_authors. -/
def Context.get_authors (c : Context) : Str := c.authors.display

/-- Embeds Context::get_year; the current calendar year (Local::now().year() in the source) is supplied as the parameter now. -/
def Context.get_year (c : Context) (now : Str) : Str :=
  match c.year with
  | some y => y
  | none => now

/-- Embeds struct Template from src/src/template.rs. -/
structure Template where
  spdx_template : Bool
  content : Str
  context : Context
deriving DecidableEq

/-- Embeds the INTERMEDIATE_YEAR_TOKEN constant "@YR@". -/
def INTERMEDIATE_YEAR_TOKEN : Str := strL "@YR@"

/-- Embeds the YEAR_RE constant "[0-9]\x7b4\x7d", the pattern for a full 4-digit year. -/
def YEAR_RE : Str := strL "[0-9]{4}"

/-- Embeds str::contains as used by replacement_tokens: whether the token occurs as a contiguous substring. -/
def containsTok (s tok : Str) : Bool :=
  if tok.isPrefixOf s then true
  else match s with
    | [] => false
    | _ :: rest => containsTok rest tok

/-- Embeds the placeholder-token selection of replacement_tokens (src/src/template.rs lines 186-206): plain templates use the square-bracket vocabulary; SPDX-style templates use the Apache triple when the content mentions "[name of copyright owner]" and otherwise the angle-bracket vocabulary with the author token chosen by inspecting the content. -/
def replacement_tokens (t : Template) : Str × Str × Str :=
  if t.spdx_template then
    if containsTok t.content (strL "[name of copyright owner]") then
      (strL "[yyyy]", strL "[name of copyright owner]", strL "[ident]")
    else
      (strL "<year>",
       if containsTok t.content (strL "<copyright holders>") then strL "<copyright holders>"
       else if containsTok t.content (strL "<owner>") then strL "<owner>"
       else strL "<name of author>",
       strL "<ident>")
  else (strL "[year]", strL "[name of author]", strL "[ident]")

/-- Modelled from the spec: crate::utils::remove_column_wrapping is not under src/. Per the Text Reflow contract (spec section 4.1) it joins each line to the next with a single space while preserving runs of two or more consecutive newlines (blank lines) verbatim. The flag records whether we are inside a preserved newline run. -/
def rcwGo (prevNl : Bool) : Str → Str
| [] => []
| c :: rest =>
  if c = '\n' then
    if prevNl then '\n' :: rcwGo true rest
    else match rest with
      | '\n' :: _ => '\n' :: rcwGo true rest
      | _ => ' ' :: rcwGo false rest
  else c :: rcwGo false rest

/-- Modelled from the spec: the entry point of the reflow used by interpolate. -/
def remove_column_wrapping (s : Str) : Str := rcwGo false s

/-- Embeds the unwrap-text reflow at src/src/template.rs lines 210-216: the replace_all of the regex "(?P<char>.)\n" with "$char ", i.e. any non-newline character followed by a newline becomes that character followed by a space; scanning is left to right and non-overlapping. -/
def unwrap_reflow : Str → Str
| [] => []
| [c] => [c]
| c :: d :: rest =>
  if c ≠ '\n' ∧ d = '\n' then c :: ' ' :: unwrap_reflow rest
  else c :: unwrap_reflow (d :: rest)

/-- Embeds str::replace (replace every occurrence, leftmost, non-overlapping). Fuel-based so the kernel can evaluate it; the fuel is at least the length of the scanned string. -/
def replGo (tok r : Str) : Nat → Str → Str
| _, [] => []
| 0, s => s
| fuel + 1, c :: rest =>
  if tok.isPrefixOf (c :: rest) then r ++ replGo tok r fuel (List.drop tok.length (c :: rest))
  else c :: replGo tok r fuel rest

/-- Embeds str::replace at the top level. -/
def listReplace (s tok r : Str) : Str := replGo tok r s.length s

/-- Embeds str::split on a (nonempty) token, keeping empty fragments, as used by build_year_varying_regex. -/
def splitGo (tok : Str) : Nat → Str → Str → List Str
| _, cur, [] => [cur.reverse]
| 0, cur, s => [cur.reverse ++ s]
| fuel + 1, cur, c :: rest =>
  if tok.isPrefixOf (c :: rest) then cur.reverse :: splitGo tok fuel [] (List.drop tok.length (c :: rest))
  else splitGo tok fuel (c :: cur) rest

/-- Embeds str::split at the top level. -/
def splitTok (s tok : Str) : List Str := splitGo tok s.length [] s

/-- Embeds Vec::join / itertools join: fragments interleaved with a separator. -/
def joinW : List Str → Str → Str
| [], _ => []
| [f], _ => f
| f :: g :: rest, sep => f ++ sep ++ joinW (g :: rest) sep

/-- Whitespace test for trim_end and word wrapping. -/
def isWsChar (c : Char) : Bool := c == ' ' || c == '\n' || c == '\t' || c == '\r'

/-- Embeds str::trim_end: drop trailing whitespace. -/
def trimEnd (s : Str) : Str := (s.reverse.dropWhile isWsChar).reverse

/-- Embeds Template::interpolate (src/src/template.rs lines 130-139): select the replacement tokens, reflow the raw content with remove_column_wrapping, then substitute the year token, the author token and the ident token, in that order, each with replace-all. -/
def interpolate (now : Str) (t : Template) (ctx : Context) : Str :=
  listReplace (listReplace (listReplace (remove_column_wrapping t.content)
    (replacement_tokens t).1 (ctx.get_year now))
    (replacement_tokens t).2.1 ctx.get_authors)
    (replacement_tokens t).2.2 ctx.ident

/-- Embeds Template::render: interpolate with the template's own context. -/
def render (now : Str) (t : Template) : Str := interpolate now t t.context

/-- Modelled from the spec: crate::comments is not under src/. A comment style is a line-comment (a per-line decoration and a count of trailing blank lines) or a block comment (open and close delimiters, a per-line continuation decoration, and a count of trailing blank lines), per spec section 3. -/
inductive Commenter where
| line (dec : Str) (trailing : Nat)
| block (opDelim clDelim lead : Str) (trailing : Nat)

/-- Split keeping empty fragments; used for splitting a text into its lines. -/
def splitKeep (p : Char → Bool) : Str → List Str
| [] => [[]]
| c :: rest =>
  if p c then [] :: splitKeep p rest
  else match splitKeep p rest with
    | [] => [[c]]
    | w :: ws => (c :: w) :: ws

/-- Split dropping separators and merging runs; used for splitting a line into words. -/
def splitDrop (p : Char → Bool) (s : Str) : List Str :=
  (splitKeep p s).filter (fun w => ¬ w.isEmpty)

/-- Greedy line filling over a list of words, measured by an abstract length function: a word joins the current line when the line length plus one separating space plus the word still fits the width. -/
def greedyGo {α : Type} (len : α → Nat) (w : Nat) : List α → Nat → List α → List (List α)
| cur, _, [] => [cur.reverse]
| cur, curLen, x :: rest =>
  if curLen + 1 + len x ≤ w then greedyGo len w (x :: cur) (curLen + 1 + len x) rest
  else cur.reverse :: greedyGo len w [x] (len x) rest

/-- Greedy line filling at the top level; the first word of a line is always accepted. -/
def greedyBy {α : Type} (len : α → Nat) (w : Nat) : List α → List (List α)
| [] => []
| x :: rest => greedyGo len w [x] (len x) rest

/-- Modelled from the spec: greedy word wrap of a single line to the configured column width. -/
def wrapLine (w : Nat) (line : Str) : Str :=
  joinW ((greedyBy List.length w (splitDrop isWsChar line)).map (fun g => joinW g [' '])) ['\n']

/-- Modelled from the spec: column wrapping of a text; no column setting leaves the text unchanged, otherwise each line is word-wrapped to the width. -/
def wrapText (cols : Option Nat) (s : Str) : Str :=
  match cols with
  | none => s
  | some w => joinW ((splitKeep (fun c => c == '\n') s).map (wrapLine w)) ['\n']

/-- Modelled from the spec: Comment::comment converts a plain text block into a commented block: wrap to the column width, decorate every line, terminate each line with a newline, and append the configured number of trailing blank lines. -/
def commentText (c : Commenter) (s : Str) (cols : Option Nat) : Str :=
  match c with
  | .line dec trailing =>
    (((splitKeep (fun ch => ch == '\n') (wrapText cols s)).map (fun l => dec ++ l ++ ['\n'])).flatten)
      ++ List.replicate trailing '\n'
  | .block opDelim clDelim lead trailing =>
    opDelim ++ ['\n']
      ++ (((splitKeep (fun ch => ch == '\n') (wrapText cols s)).map (fun l => lead ++ l ++ ['\n'])).flatten)
      ++ clDelim ++ ['\n'] ++ List.replicate trailing '\n'

/-- Modelled from the spec: the metacharacter set of the external regex crate, as used by regex::escape. -/
def isMeta (c : Char) : Bool :=
  c == '\\' || c == '.' || c == '+' || c == '*' || c == '?' || c == '(' || c == ')' || c == '|' ||
  c == '[' || c == ']' || c == '{' || c == '}' || c == '^' || c == '$' || c == '#' || c == '&' ||
  c == '-' || c == '~'

/-- Modelled from the spec: regex::escape prepends a backslash to every metacharacter so all literal text matches itself. -/
def regexEscape (s : Str) : Str := s.flatMap (fun c => if isMeta c then ['\\', c] else [c])

/-- Modelled from the spec: the compiler of the external regex crate, restricted to the dialect the builder emits (regex-escaped literal fragments joined by the 4-digit-year class). It returns the literal fragments standing between the year wildcards, or none on a malformed pattern. Fuel-based; the fuel exceeds the pattern length. -/
def parseGo : Nat → Str → Str → Option (List Str)
| 0, _, _ => none
| fuel + 1, acc, s =>
  if YEAR_RE.isPrefixOf s then
    (parseGo fuel [] (List.drop 8 s)).map (fun fs => acc.reverse :: fs)
  else match s with
    | [] => some [acc.reverse]
    | c :: rest =>
      if c = '\\' then
        match rest with
        | [] => none
        | c2 :: rest2 => parseGo fuel (c2 :: acc) rest2
      else if isMeta c then none
      else parseGo fuel (c :: acc) rest

/-- Modelled from the spec: Regex::new for the emitted dialect. -/
def patParse (s : Str) : Option (List Str) := parseGo (s.length + 1) [] s

/-- First four characters are decimal digits. -/
def fourDigits (s : Str) : Bool :=
  match s with
  | a :: b :: c :: d :: _ => a.isDigit && b.isDigit && c.isDigit && d.isDigit
  | _ => false

/-- Matching of a compiled year-varying pattern at the current position: each literal fragment must occur verbatim, with exactly four decimal digits standing between consecutive fragments. -/
def matchFrom : List Str → Str → Bool
| [], _ => true
| [f], s => f.isPrefixOf s
| f :: g :: rest, s =>
  f.isPrefixOf s && fourDigits (List.drop f.length s)
    && matchFrom (g :: rest) (List.drop 4 (List.drop f.length s))

/-- Modelled from the spec: Regex::is_match is an unanchored search, trying every start position. -/
def patMatch (p : List Str) (s : Str) : Bool :=
  matchFrom p s || match s with
    | [] => false
    | _ :: rest => patMatch p rest

/-- Embeds Template::build_year_varying_regex (src/src/template.rs lines 141-183): clone the context forcing the year to the intermediate token, interpolate, comment, optionally trim trailing whitespace, split on the token, regex-escape every fragment, rejoin with the 4-digit-year pattern and compile. -/
def build_year_varying_regex (now : Str) (t : Template) (c : Commenter) (cols : Option Nat)
    (trim_trailing : Bool) : Option (List Str) :=
  patParse (joinW ((splitTok
    (if trim_trailing
      then trimEnd (commentText c (interpolate now t { t.context with year := some INTERMEDIATE_YEAR_TOKEN }) cols)
      else commentText c (interpolate now t { t.context with year := some INTERMEDIATE_YEAR_TOKEN }) cols)
    INTERMEDIATE_YEAR_TOKEN).map regexEscape) YEAR_RE)

/-- Embeds Template::outdated_license_pattern: the untrimmed year-varying pattern. -/
def outdated_license_pattern (now : Str) (t : Template) (c : Commenter) (cols : Option Nat) :
    Option (List Str) :=
  build_year_varying_regex now t c cols false

/-- Embeds Template::outdated_license_trimmed_pattern: the trimmed year-varying pattern. -/
def outdated_license_trimmed_pattern (now : Str) (t : Template) (c : Commenter) (cols : Option Nat) :
    Option (List Str) :=
  build_year_varying_regex now t c cols true

/-- Embeds the state effect of build_year_varying_regex: the method borrows the template immutably and mutates only a local clone of the context, so alongside the compiled pattern the template it leaves behind is returned. -/
def build_year_varying_regexSt (now : Str) (t : Template) (c : Commenter) (cols : Option Nat)
    (trim_trailing : Bool) : Option (List Str) × Template :=
  (build_year_varying_regex now t c cols trim_trailing, t)

/-- Replace the year stored in a template's context. -/
def setYear (t : Template) (y : Option Str) : Template :=
  { t with context := { t.context with year := y } }

/-- Replace the unwrap_text flag stored in a template's context. -/
def setUnwrap (t : Template) (b : Bool) : Template :=
  { t with context := { t.context with unwrap_text := b } }

/-!
Marked strings: the proof device for the year-varying pattern.  A marked
string is a license header with the year occurrences abstracted into holes;
instantiating every hole with a concrete 4-character year (the intermediate
token or a rendered year) recovers the two parallel pipelines of
build_year_varying_regex.
-/

/-- Marked character: an ordinary character or a hole standing for the year. -/
inductive MC where
| ch (c : Char)
| hole
deriving DecidableEq

abbrev Mstr := List MC

/-- Lift a plain string into a marked string without holes. -/
def mOfStr (s : Str) : Mstr := s.map MC.ch

/-- Instantiate every hole of a marked string with the given year string. -/
def toStr (yr : Str) (m : Mstr) : Str :=
  m.flatMap (fun mc => match mc with | .ch c => [c] | .hole => yr)

/-- Newline test on marked characters; a hole is never a newline. -/
def mIsNl : MC → Bool
| .ch c => c == '\n'
| .hole => false

/-- Whitespace test on marked characters; a hole is never whitespace. -/
def mIsWs : MC → Bool
| .ch c => isWsChar c
| .hole => false

/-- Length of a marked string when every hole is 4 characters wide. -/
def mLength : Mstr → Nat
| [] => 0
| .ch _ :: rest => 1 + mLength rest
| .hole :: rest => 4 + mLength rest

/-- Prefix test of a plain token against a marked string; holes never match. -/
def mPrefixOf : Str → Mstr → Bool
| [], _ => true
| _ :: _, [] => false
| a :: tok, .ch c :: m => (a == c) && mPrefixOf tok m
| _ :: _, .hole :: _ => false

/-- Replace-all of a plain token by a plain replacement inside a marked string; fuel-based like replGo. -/
def mReplGo (tok r : Str) : Nat → Mstr → Mstr
| _, [] => []
| 0, m => m
| fuel + 1, mc :: rest =>
  if mPrefixOf tok (mc :: rest) then mOfStr r ++ mReplGo tok r fuel (List.drop tok.length (mc :: rest))
  else mc :: mReplGo tok r fuel rest

/-- Replace-all on marked strings at the top level. -/
def mRepl (m : Mstr) (tok r : Str) : Mstr := mReplGo tok r m.length m

/-- Split a marked string keeping empty fragments, mirroring splitKeep. -/
def mSplitKeep (p : MC → Bool) : Mstr → List Mstr
| [] => [[]]
| mc :: rest =>
  if p mc then [] :: mSplitKeep p rest
  else match mSplitKeep p rest with
    | [] => [[mc]]
    | w :: ws => (mc :: w) :: ws

/-- Split a marked string into words, mirroring splitDrop. -/
def mSplitDrop (p : MC → Bool) (m : Mstr) : List Mstr :=
  (mSplitKeep p m).filter (fun w => ¬ w.isEmpty)

/-- Join marked fragments with a marked separator, mirroring joinW. -/
def mJoinW : List Mstr → Mstr → Mstr
| [], _ => []
| [f], _ => f
| f :: g :: rest, sep => f ++ sep ++ mJoinW (g :: rest) sep

/-- Word wrap of a marked line, mirroring wrapLine with holes 4 characters wide. -/
def mWrapLine (w : Nat) (line : Mstr) : Mstr :=
  mJoinW ((greedyBy mLength w (mSplitDrop mIsWs line)).map (fun g => mJoinW g [MC.ch ' '])) [MC.ch '\n']

/-- Column wrapping of a marked text, mirroring wrapText. -/
def mWrapText (cols : Option Nat) (m : Mstr) : Mstr :=
  match cols with
  | none => m
  | some w => mJoinW ((mSplitKeep mIsNl m).map (mWrapLine w)) [MC.ch '\n']

/-- Comment decoration of a marked text, mirroring commentText. -/
def mCommentText (c : Commenter) (m : Mstr) (cols : Option Nat) : Mstr :=
  match c with
  | .line dec trailing =>
    (((mSplitKeep mIsNl (mWrapText cols m)).map (fun l => mOfStr dec ++ l ++ [MC.ch '\n'])).flatten)
      ++ List.replicate trailing (MC.ch '\n')
  | .block opDelim clDelim lead trailing =>
    mOfStr opDelim ++ [MC.ch '\n']
      ++ (((mSplitKeep mIsNl (mWrapText cols m)).map (fun l => mOfStr lead ++ l ++ [MC.ch '\n'])).flatten)
      ++ mOfStr clDelim ++ [MC.ch '\n'] ++ List.replicate trailing (MC.ch '\n')

/-- The marked header of a template under a comment style: the interpolation and comment pipeline of build_year_varying_regex with the year left as a hole. -/
def markedHeader (t : Template) (c : Commenter) (cols : Option Nat) : Mstr :=
  mCommentText c
    (mRepl
      (mRepl
        (mJoinW ((splitTok (remove_column_wrapping t.content) (replacement_tokens t).1).map mOfStr)
          [MC.hole])
        (replacement_tokens t).2.1 t.context.get_authors)
      (replacement_tokens t).2.2 t.context.ident)
    cols

/-- Fragments of a marked string: the plain texts standing between consecutive holes. -/
def mFrags : Mstr → List Str
| [] => [[]]
| .hole :: rest => [] :: mFrags rest
| .ch c :: rest =>
  match mFrags rest with
  | [] => [[c]]
  | w :: ws => (c :: w) :: ws

/-- The canonical sentinel fragments of a commented header: the literal texts around the injected year occurrences. -/
def sentinelFrags (t : Template) (c : Commenter) (cols : Option Nat) : List Str :=
  mFrags (markedHeader t c cols)

/-! Basic facts about prefixes and the fuel-based scanners. -/

lemma prefixOf_eq_true_iff (l s : Str) : l.isPrefixOf s = true ↔ ∃ t, s = l ++ t := by
  rw [ List.isPrefixOf_iff_prefix]
  constructor
  · rintro ⟨t, ht⟩
    exact ⟨t, ht.symm⟩
  · rintro ⟨t, ht⟩
    exact ⟨t, ht.symm⟩

lemma prefixOf_self_append (l t : Str) : l.isPrefixOf (l ++ t) = true := by
  rw [prefixOf_eq_true_iff]
  exact ⟨t, rfl⟩

lemma prefixOf_head_mem {tok : Str} (htok : tok ≠ []) {c : Char} {s : Str}
    (h : tok.isPrefixOf (c :: s) = true) : c ∈ tok := by
  rw [prefixOf_eq_true_iff] at h
  obtain ⟨u, hu⟩ := h
  cases tok with
  | nil => exact absurd rfl htok
  | cons a tok' =>
    simp only [List.cons_append, List.cons.injEq] at hu
    rw [hu.1]
    exact List.mem_cons_self a tok'

lemma drop_toklen_of_prefixOf {tok s : Str} (h : tok.isPrefixOf s = true) :
    s = tok ++ List.drop tok.length s := by
  rw [prefixOf_eq_true_iff] at h
  obtain ⟨u, hu⟩ := h
  subst hu
  rw [List.drop_left]

lemma replGo_fuel2 (tok r : Str) (htok : tok ≠ []) :
    ∀ (f g : Nat) (s : Str), s.length ≤ f → s.length ≤ g →
      replGo tok r f s = replGo tok r g s := by
  intro f
  induction f with
  | zero =>
    intro g s hf hg
    have hs : s = [] := List.eq_nil_of_length_eq_zero (Nat.le_zero.mp hf)
    subst hs
    simp [replGo]
  | succ f ih =>
    intro g s hf hg
    cases s with
    | nil => simp [replGo]
    | cons c rest =>
      cases g with
      | zero => simp at hg
      | succ g =>
        have htl : 1 ≤ tok.length := List.length_pos.mpr htok
        have hlr : rest.length ≤ f := by
          simp only [List.length_cons] at hf
          omega
        have hlg : rest.length ≤ g := by
          simp only [List.length_cons] at hg
          omega
        have hdf : (List.drop tok.length (c :: rest)).length ≤ f := by
          simp only [List.length_drop, List.length_cons]
          omega
        have hdg : (List.drop tok.length (c :: rest)).length ≤ g := by
          simp only [List.length_drop, List.length_cons]
          omega
        simp only [replGo]
        by_cases h : tok.isPrefixOf (c :: rest) = true
        · simp only [h, if_true]
          rw [ih g _ hdf hdg]
        · simp only [h, if_false, Bool.false_eq_true]
          rw [ih g rest hlr hlg]

lemma listReplace_nil (tok r : Str) : listReplace [] tok r = [] := by
  simp [listReplace, replGo]

lemma listReplace_cons (tok r : Str) (htok : tok ≠ []) (c : Char) (s : Str) :
    listReplace (c :: s) tok r =
      if tok.isPrefixOf (c :: s) then r ++ listReplace (List.drop tok.length (c :: s)) tok r
      else c :: listReplace s tok r := by
  have htl : 1 ≤ tok.length := List.length_pos.mpr htok
  show replGo tok r (s.length + 1) (c :: s) = _
  simp only [replGo]
  by_cases h : tok.isPrefixOf (c :: s) = true
  · simp only [h, if_true]
    congr 1
    apply replGo_fuel2 tok r htok
    · simp only [List.length_drop, List.length_cons]
      omega
    · exact le_rfl
  · simp only [h, if_false, Bool.false_eq_true]
    rfl

lemma listReplace_append_disjoint (tok r : Str) (htok : tok ≠ []) :
    ∀ (ys t : Str), (∀ c ∈ ys, c ∉ tok) →
      listReplace (ys ++ t) tok r = ys ++ listReplace t tok r := by
  intro ys
  induction ys with
  | nil => intro t _; rfl
  | cons y ys ih =>
    intro t hdisj
    rw [List.cons_append, listReplace_cons tok r htok]
    have hnp : ¬ tok.isPrefixOf (y :: (ys ++ t)) = true := by
      intro h
      exact hdisj y (List.mem_cons_self y ys) (prefixOf_head_mem htok h)
    simp only [hnp, if_false, Bool.false_eq_true]
    rw [ih t (fun c hc => hdisj c (List.mem_cons_of_mem y hc))]
    simp [List.cons_append]

lemma containsTok_cons (c : Char) (s tok : Str) :
    containsTok (c :: s) tok = (tok.isPrefixOf (c :: s) || containsTok s tok) := by
  rw [containsTok]
  by_cases h : tok.isPrefixOf (c :: s) = true <;> simp [h]

lemma listReplace_of_not_contains (tok r : Str) (htok : tok ≠ []) :
    ∀ (s : Str), containsTok s tok = false → listReplace s tok r = s := by
  intro s
  induction s with
  | nil => intro _; exact listReplace_nil tok r
  | cons c rest ih =>
    intro h
    rw [containsTok_cons] at h
    simp only [Bool.or_eq_false_iff] at h
    rw [listReplace_cons tok r htok]
    simp only [h.1, if_false, Bool.false_eq_true]
    rw [ih h.2]

lemma splitGo_ne_nil (tok : Str) : ∀ (f : Nat) (cur s : Str), splitGo tok f cur s ≠ [] := by
  intro f
  induction f with
  | zero =>
    intro cur s
    cases s <;> simp [splitGo]
  | succ f ih =>
    intro cur s
    cases s with
    | nil => simp [splitGo]
    | cons c rest =>
      simp only [splitGo]
      by_cases h : tok.isPrefixOf (c :: rest) = true
      · simp [h]
      · simp only [h, if_false, Bool.false_eq_true]
        exact ih (c :: cur) rest

lemma joinW_splitGo (tok r : Str) (htok : tok ≠ []) :
    ∀ (f : Nat) (s cur : Str), s.length ≤ f →
      joinW (splitGo tok f cur s) r = cur.reverse ++ replGo tok r f s := by
  intro f
  induction f with
  | zero =>
    intro s cur hf
    have hs : s = [] := List.eq_nil_of_length_eq_zero (Nat.le_zero.mp hf)
    subst hs
    simp [splitGo, replGo, joinW]
  | succ f ih =>
    intro s cur hf
    cases s with
    | nil => simp [splitGo, replGo, joinW]
    | cons c rest =>
      have htl : 1 ≤ tok.length := List.length_pos.mpr htok
      simp only [List.length_cons] at hf
      simp only [splitGo, replGo]
      by_cases h : tok.isPrefixOf (c :: rest) = true
      · simp only [h, if_true]
        have hlen : (List.drop tok.length (c :: rest)).length ≤ f := by
          simp only [List.length_drop, List.length_cons]
          omega
        rcases hsg : splitGo tok f [] (List.drop tok.length (c :: rest)) with _ | ⟨l0, L⟩
        · exact absurd hsg (splitGo_ne_nil tok f [] _)
        · have := ih (List.drop tok.length (c :: rest)) [] hlen
          rw [hsg] at this
          show joinW (cur.reverse :: l0 :: L) r = _
          rw [joinW]
          simp only [List.reverse_nil, List.nil_append] at this
          rw [this]
          simp [List.append_assoc]
      · simp only [h, if_false, Bool.false_eq_true]
        have hlen : rest.length ≤ f := by omega
        rw [ih rest (c :: cur) hlen]
        simp [List.append_assoc]

lemma listReplace_eq_joinW_splitTok (s tok r : Str) (htok : tok ≠ []) :
    listReplace s tok r = joinW (splitTok s tok) r := by
  have := joinW_splitGo tok r htok s.length s [] le_rfl
  simp only [List.reverse_nil, List.nil_append] at this
  exact this.symm

lemma splitTok_ne_nil (s tok : Str) : splitTok s tok ≠ [] :=
  splitGo_ne_nil tok s.length [] s

/-! Facts about the Authors display fold and joinW. -/

lemma joinW_cons_flatten :
    ∀ (xs : List Str) (x sep : Str),
      joinW (x :: xs) sep = x ++ (xs.map (fun y => sep ++ y)).flatten := by
  intro xs
  induction xs with
  | nil => intro x sep; simp [joinW]
  | cons y ys ih =>
    intro x sep
    rw [joinW, ih y sep]
    simp [List.append_assoc]

lemma authors_foldl_from_nonempty :
    ∀ (l : List CopyrightHolder) (acc : Str), acc ≠ [] →
      l.foldl (fun a au => (if a.isEmpty then a else a ++ strL ", ") ++ au.display) acc =
        acc ++ (l.map (fun au => strL ", " ++ au.display)).flatten := by
  intro l
  induction l with
  | nil => intro acc _; simp
  | cons au l ih =>
    intro acc hacc
    have hne : acc.isEmpty = false := by
      cases acc with
      | nil => exact absurd rfl hacc
      | cons a as => rfl
    rw [List.foldl_cons]
    have hstep : (if acc.isEmpty then acc else acc ++ strL ", ") ++ au.display =
        acc ++ (strL ", " ++ au.display) := by
      rw [hne]
      simp [List.append_assoc]
    have hne2 : acc ++ (strL ", " ++ au.display) ≠ [] := by
      intro h
      rcases List.append_eq_nil.mp h with ⟨h1, h2⟩
      exact absurd h1 hacc
    rw [hstep, ih (acc ++ (strL ", " ++ au.display)) hne2]
    simp only [List.map_cons, List.flatten_cons, List.append_assoc]

lemma authors_display_cons (a : CopyrightHolder) (as : List CopyrightHolder)
    (ha : a.display ≠ []) :
    Authors.display ⟨a :: as⟩ = joinW ((a :: as).map CopyrightHolder.display) (strL ", ") := by
  have h1 : Authors.display ⟨a :: as⟩ =
      (a :: as).foldl (fun x au => (if x.isEmpty then x else x ++ strL ", ") ++ au.display) [] := rfl
  rw [h1, List.foldl_cons]
  have h0 : (if ([] : Str).isEmpty then ([] : Str) else [] ++ strL ", ") ++ a.display =
      a.display := by simp
  rw [h0, authors_foldl_from_nonempty as a.display ha, List.map_cons,
    joinW_cons_flatten (as.map CopyrightHolder.display) a.display (strL ", "), List.map_map]
  rfl

lemma replacement_tokens_ne_nil (t : Template) :
    (replacement_tokens t).1 ≠ [] ∧ (replacement_tokens t).2.1 ≠ [] ∧
      (replacement_tokens t).2.2 ≠ [] := by
  unfold replacement_tokens
  split_ifs <;> exact ⟨by decide, by decide, by decide⟩


/-! Facts about the pattern parser: regex-escaped fragments joined by the year class always compile back to the fragments. -/

lemma yearre_len : YEAR_RE.length = 8 := by decide

lemma parseGo_fuel2 :
    ∀ (f g : Nat) (acc s : Str), s.length + 1 ≤ f → s.length + 1 ≤ g →
      parseGo f acc s = parseGo g acc s := by
  intro f
  induction f with
  | zero => intro g acc s hf _; omega
  | succ f ih =>
    intro g acc s hf hg
    cases g with
    | zero => omega
    | succ g =>
      simp only [parseGo]
      by_cases hy : YEAR_RE.isPrefixOf s = true
      · simp only [hy, if_true]
        have hs8 : s.length = 8 + (List.drop 8 s).length := by
          have hdec := drop_toklen_of_prefixOf hy
          conv_lhs => rw [hdec]
          simp [yearre_len]
        rw [ih g [] (List.drop 8 s) (by omega) (by omega)]
      · simp only [hy, if_false, Bool.false_eq_true]
        cases s with
        | nil => rfl
        | cons c rest =>
          simp only [List.length_cons] at hf hg
          by_cases hc : c = '\\'
          · simp only [hc, if_true]
            cases rest with
            | nil => rfl
            | cons c2 rest2 =>
              simp only [List.length_cons] at hf hg
              exact ih g (c2 :: acc) rest2 (by omega) (by omega)
          · simp only [hc, if_false]
            by_cases hm : isMeta c = true
            · simp [hm]
            · simp only [hm, if_false, Bool.false_eq_true]
              exact ih g (c :: acc) rest (by omega) (by omega)

lemma pg_renorm (fuel : Nat) (acc s : Str) (h : s.length + 1 ≤ fuel) :
    parseGo fuel acc s = parseGo (s.length + 1) acc s :=
  parseGo_fuel2 fuel (s.length + 1) acc s h le_rfl

lemma yearre_not_prefix_cons (c : Char) (s : Str) (hc : c ≠ '[') :
    YEAR_RE.isPrefixOf (c :: s) = false := by
  have hyre : YEAR_RE = '[' :: strL "0-9]{4}" := by decide
  rw [hyre]
  show (('[' == c) && (strL "0-9]{4}").isPrefixOf s) = false
  have hb : ('[' == c) = false := by
    rw [beq_eq_false_iff_ne]
    exact fun h => hc h.symm
  rw [hb, Bool.false_and]

lemma meta_bracket : isMeta '[' = true := by decide

lemma meta_backslash : isMeta '\\' = true := by decide

lemma pg_step_yre (acc s : Str) (h : YEAR_RE.isPrefixOf s = true) :
    parseGo (s.length + 1) acc s =
      (parseGo ((List.drop 8 s).length + 1) [] (List.drop 8 s)).map
        (fun fs => acc.reverse :: fs) := by
  cases s with
  | nil => exact absurd h (by decide)
  | cons c rest =>
    show parseGo (rest.length + 1 + 1) acc (c :: rest) = _
    generalize hg : rest.length + 1 = n
    simp only [parseGo, h, if_true]
    congr 1
    apply pg_renorm
    simp only [List.length_drop, List.length_cons]
    omega

lemma pg_step_nil (fuel : Nat) (acc : Str) : parseGo (fuel + 1) acc [] = some [acc.reverse] := by
  have hy : YEAR_RE.isPrefixOf ([] : Str) = false := by decide
  simp [parseGo, hy]

lemma pg_step_bslash (m : Nat) (acc : Str) (c : Char) (rest : Str) (hm : rest.length + 1 ≤ m) :
    parseGo (m + 1) acc ('\\' :: c :: rest) = parseGo (rest.length + 1) (c :: acc) rest := by
  have hnp : YEAR_RE.isPrefixOf ('\\' :: c :: rest) = false :=
    yearre_not_prefix_cons _ _ (by decide)
  simp only [parseGo, hnp, Bool.false_eq_true, if_false]
  rw [if_pos trivial]
  exact pg_renorm m (c :: acc) rest hm

lemma pg_step_lit (m : Nat) (acc : Str) (c : Char) (rest : Str) (hmta : isMeta c = false)
    (hm : rest.length + 1 ≤ m) :
    parseGo (m + 1) acc (c :: rest) = parseGo (rest.length + 1) (c :: acc) rest := by
  have hcb : c ≠ '[' := fun hh => by rw [hh] at hmta; exact absurd meta_bracket (by simp [hmta])
  have hcs : c ≠ '\\' := fun hh => by rw [hh] at hmta; exact absurd meta_backslash (by simp [hmta])
  have hnp : YEAR_RE.isPrefixOf (c :: rest) = false := yearre_not_prefix_cons _ _ hcb
  simp only [parseGo, hnp, Bool.false_eq_true, if_false]
  rw [if_neg hcs, hmta]
  rw [if_neg (by simp : ¬ (false = true))]
  exact pg_renorm m (c :: acc) rest hm

lemma pg_escape (f : Str) :
    ∀ (acc rest : Str),
      parseGo ((regexEscape f ++ rest).length + 1) acc (regexEscape f ++ rest) =
        parseGo (rest.length + 1) (f.reverse ++ acc) rest := by
  induction f with
  | nil => intro acc rest; simp [regexEscape]
  | cons c f ih =>
    intro acc rest
    by_cases hm : isMeta c = true
    · have hesc : regexEscape (c :: f) ++ rest = '\\' :: c :: (regexEscape f ++ rest) := by
        simp [regexEscape, hm]
      rw [hesc]
      have hlen : ('\\' :: c :: (regexEscape f ++ rest)).length + 1 =
          ((regexEscape f ++ rest).length + 1) + 1 + 1 := by simp
      rw [hlen, pg_step_bslash ((regexEscape f ++ rest).length + 1 + 1) acc c
        (regexEscape f ++ rest) (by omega)]
      rw [ih (c :: acc) rest]
      congr 1
      simp [List.append_assoc]
    · have hmf : isMeta c = false := by simp [hm]
      have hesc : regexEscape (c :: f) ++ rest = c :: (regexEscape f ++ rest) := by
        simp [regexEscape, hmf]
      rw [hesc]
      have hlen : (c :: (regexEscape f ++ rest)).length + 1 =
          ((regexEscape f ++ rest).length) + 1 + 1 := by simp
      rw [hlen, pg_step_lit ((regexEscape f ++ rest).length + 1) acc c (regexEscape f ++ rest)
        hmf (by omega)]
      rw [ih (c :: acc) rest]
      congr 1
      simp [List.append_assoc]

lemma patParse_roundtrip :
    ∀ (fs : List Str), fs ≠ [] → patParse (joinW (fs.map regexEscape) YEAR_RE) = some fs := by
  intro fs
  induction fs with
  | nil => intro h; exact absurd rfl h
  | cons f rest ih =>
    intro _
    cases rest with
    | nil =>
      show parseGo _ [] (joinW (List.map regexEscape [f]) YEAR_RE) = _
      have hx : joinW (List.map regexEscape [f]) YEAR_RE = regexEscape f ++ [] := by
        simp [joinW]
      rw [hx, pg_escape f [] []]
      show parseGo (0 + 1) (f.reverse ++ []) [] = _
      rw [pg_step_nil]
      simp
    | cons g rest2 =>
      have hx : joinW ((f :: g :: rest2).map regexEscape) YEAR_RE =
          regexEscape f ++ (YEAR_RE ++ joinW ((g :: rest2).map regexEscape) YEAR_RE) := by
        simp [List.map_cons, joinW, List.append_assoc]
      show parseGo _ [] _ = _
      rw [hx, pg_escape f [] (YEAR_RE ++ joinW ((g :: rest2).map regexEscape) YEAR_RE)]
      have hyp : YEAR_RE.isPrefixOf
          (YEAR_RE ++ joinW ((g :: rest2).map regexEscape) YEAR_RE) = true :=
        prefixOf_self_append _ _
      rw [pg_step_yre _ _ hyp]
      have hdrop : List.drop 8 (YEAR_RE ++ joinW ((g :: rest2).map regexEscape) YEAR_RE) =
          joinW ((g :: rest2).map regexEscape) YEAR_RE := by
        have h8 : (8 : Nat) = YEAR_RE.length := by decide
        rw [h8, List.drop_left]
      rw [hdrop]
      have ihr : parseGo ((joinW ((g :: rest2).map regexEscape) YEAR_RE).length + 1) []
          (joinW ((g :: rest2).map regexEscape) YEAR_RE) = some (g :: rest2) := ih (by simp)
      rw [ihr]
      simp

/-! The claim theorems. -/

/-- Claim C2, counterexample: a template whose context has unwrap_text set to false, whose content "a\x0ab" contains no placeholder token, still renders with the line break reflowed into a space (render gives "a b", not the raw content "a\x0ab"), contradicting the claim that with unwrap_text false the raw content's line structure is passed through untouched. -/
theorem c2_counterexample :
    render (strL "2024") ⟨false, strL "a\nb", ⟨strL "i", ⟨[]⟩, some (strL "2020"), false⟩⟩ =
        strL "a b" ∧
      render (strL "2024") ⟨false, strL "a\nb", ⟨strL "i", ⟨[]⟩, some (strL "2020"), false⟩⟩ ≠
        strL "a\nb" := by
  constructor
  · decide
  · decide

/-- Claim C2, amended: interpolate never consults the unwrap_text flag, so render applies the reflow to the raw content unconditionally and flipping unwrap_text never changes the rendered output. -/
theorem c2_unwrap_flag_amended (now : Str) (t : Template) (b : Bool) :
    render now (setUnwrap t b) = render now t := rfl

/-- Claim C3: the placeholder token triple is ("[year]", "[name of author]", "[ident]") for non-SPDX templates; for SPDX templates containing "[name of copyright owner]" it is ("[yyyy]", "[name of copyright owner]", "[ident]"); for the remaining SPDX templates the year token is "<year>", the ident token is "<ident>", and the author token is "<copyright holders>" when present, else "<owner>" when present, else "<name of author>". -/
theorem c3_replacement_tokens (t : Template) :
    (t.spdx_template = false →
      replacement_tokens t = (strL "[year]", strL "[name of author]", strL "[ident]")) ∧
    (t.spdx_template = true →
      containsTok t.content (strL "[name of copyright owner]") = true →
      replacement_tokens t = (strL "[yyyy]", strL "[name of copyright owner]", strL "[ident]")) ∧
    (t.spdx_template = true →
      containsTok t.content (strL "[name of copyright owner]") = false →
      (replacement_tokens t).1 = strL "<year>" ∧ (replacement_tokens t).2.2 = strL "<ident>" ∧
      (containsTok t.content (strL "<copyright holders>") = true →
        (replacement_tokens t).2.1 = strL "<copyright holders>") ∧
      (containsTok t.content (strL "<copyright holders>") = false →
        containsTok t.content (strL "<owner>") = true →
        (replacement_tokens t).2.1 = strL "<owner>") ∧
      (containsTok t.content (strL "<copyright holders>") = false →
        containsTok t.content (strL "<owner>") = false →
        (replacement_tokens t).2.1 = strL "<name of author>")) := by
  refine ⟨?_, ?_, ?_⟩
  · intro h
    simp [replacement_tokens, h]
  · intro h1 h2
    simp [replacement_tokens, h1, h2]
  · intro h1 h2
    refine ⟨by simp [replacement_tokens, h1, h2], by simp [replacement_tokens, h1, h2],
      ?_, ?_, ?_⟩
    · intro h3
      simp [replacement_tokens, h1, h2, h3]
    · intro h3 h4
      simp [replacement_tokens, h1, h2, h3, h4]
    · intro h3 h4
      simp [replacement_tokens, h1, h2, h3, h4]

/-- Claim C3, witness: the three branches of the token selection evaluated at concrete templates. -/
theorem c3_replacement_tokens_witness :
    replacement_tokens ⟨false, strL "x", ⟨strL "i", ⟨[]⟩, some (strL "2020"), false⟩⟩ =
        (strL "[year]", strL "[name of author]", strL "[ident]") ∧
      replacement_tokens
          ⟨true, strL "a [name of copyright owner] b", ⟨strL "i", ⟨[]⟩, some (strL "2020"), false⟩⟩ =
        (strL "[yyyy]", strL "[name of copyright owner]", strL "[ident]") ∧
      (replacement_tokens
          ⟨true, strL "a <copyright holders> b", ⟨strL "i", ⟨[]⟩, some (strL "2020"), false⟩⟩).2.1 =
        strL "<copyright holders>" :=
  ⟨(c3_replacement_tokens _).1 rfl,
    (c3_replacement_tokens _).2.1 rfl (by decide),
    ((c3_replacement_tokens _).2.2 rfl (by decide)).2.2.1 (by decide)⟩

/-- Claim C5, code bug: the reflow transform of src/src/template.rs lines 210-216 is not idempotent; on "A\x0a\x0aC" one application gives "A \x0aC" (the first newline of the blank pair is consumed) and a second application gives "A  C". -/
theorem c5_reflow_not_idempotent :
    unwrap_reflow (strL "A\n\nC") = strL "A \nC" ∧
      unwrap_reflow (unwrap_reflow (strL "A\n\nC")) = strL "A  C" ∧
      unwrap_reflow (unwrap_reflow (strL "A\n\nC")) ≠ unwrap_reflow (strL "A\n\nC") := by
  refine ⟨by decide, by decide, by decide⟩

/-- Claim C6, code bug: on "A\x0aB\x0a\x0aC" the reflow transform of src/src/template.rs lines 210-216 yields "A B \x0aC", not the "A B\x0a\x0aC" required by the claim: the replacement consumes the first newline of the blank pair, so the empty line is not preserved verbatim. -/
theorem c6_blank_line_not_preserved :
    unwrap_reflow (strL "A\nB\n\nC") = strL "A B \nC" ∧
      unwrap_reflow (strL "A\nB\n\nC") ≠ strL "A B\n\nC" := by
  refine ⟨by decide, by decide⟩

/-- Claim C7, counterexample: the content "[name of\x0aauthor]" contains none of the selected tokens, yet render does not return the (reflowed) content unchanged: the reflow joins the two lines into "[name of author]", creating an author-token occurrence that is then substituted away. -/
theorem c7_counterexample :
    containsTok (strL "[name of\nauthor]") (strL "[year]") = false ∧
      containsTok (strL "[name of\nauthor]") (strL "[name of author]") = false ∧
      containsTok (strL "[name of\nauthor]") (strL "[ident]") = false ∧
      render (strL "2024")
          ⟨false, strL "[name of\nauthor]", ⟨strL "i", ⟨[]⟩, some (strL "2020"), false⟩⟩ ≠
        remove_column_wrapping (strL "[name of\nauthor]") ∧
      render (strL "2024")
          ⟨false, strL "[name of\nauthor]", ⟨strL "i", ⟨[]⟩, some (strL "2020"), false⟩⟩ ≠
        strL "[name of\nauthor]" := by
  refine ⟨by decide, by decide, by decide, by decide, by decide⟩

/-- Claim C7, amended: substitution is replace-all (replace equals splitting on the token and rejoining with the replacement), and when none of the selected tokens occur in the reflowed content, render returns the reflowed content unchanged. -/
theorem c7_substitution_amended :
    (∀ (s tok r : Str), tok ≠ [] → listReplace s tok r = joinW (splitTok s tok) r) ∧
    (∀ (now : Str) (t : Template),
      containsTok (remove_column_wrapping t.content) (replacement_tokens t).1 = false →
      containsTok (remove_column_wrapping t.content) (replacement_tokens t).2.1 = false →
      containsTok (remove_column_wrapping t.content) (replacement_tokens t).2.2 = false →
      render now t = remove_column_wrapping t.content) := by
  constructor
  · intro s tok r htok
    exact listReplace_eq_joinW_splitTok s tok r htok
  · intro now t h1 h2 h3
    obtain ⟨n1, n2, n3⟩ := replacement_tokens_ne_nil t
    show interpolate now t t.context = _
    unfold interpolate
    rw [listReplace_of_not_contains _ _ n1 _ h1, listReplace_of_not_contains _ _ n2 _ h2,
      listReplace_of_not_contains _ _ n3 _ h3]

/-- Claim C7, witness: the amended theorem applied at concrete inputs, discharging every hypothesis. -/
theorem c7_substitution_amended_witness :
    listReplace (strL "aba") (strL "a") (strL "c") =
        joinW (splitTok (strL "aba") (strL "a")) (strL "c") ∧
      render (strL "2024") ⟨false, strL "hello", ⟨strL "i", ⟨[]⟩, some (strL "2020"), false⟩⟩ =
        remove_column_wrapping (strL "hello") :=
  ⟨c7_substitution_amended.1 (strL "aba") (strL "a") (strL "c") (by decide),
    c7_substitution_amended.2 (strL "2024") _ (by decide) (by decide) (by decide)⟩

/-- Claim C8, counterexample: an author list whose first member has an empty name and no email displays as "B", not as the display forms joined by ", " (which would be ", B"): the fold adds a separator only when the accumulated string is nonempty. -/
theorem c8_counterexample :
    Authors.display ⟨[⟨[], none⟩, ⟨strL "B", none⟩]⟩ = strL "B" ∧
      Authors.display ⟨[⟨[], none⟩, ⟨strL "B", none⟩]⟩ ≠
        joinW (([⟨[], none⟩, ⟨strL "B", none⟩] : List CopyrightHolder).map CopyrightHolder.display)
          (strL ", ") := by
  refine ⟨by decide, by decide⟩

/-- Claim C8, amended: the empty author list displays as the empty string; a single author displays as "Name <email>" with an email and "Name" without; and a list of authors whose first member has a nonempty display form displays as the individual display forms joined by ", " in list order. -/
theorem c8_author_formatting_amended :
    (Authors.display ⟨[]⟩ = []) ∧
    (∀ (n e : Str), Authors.display ⟨[⟨n, some e⟩]⟩ = n ++ strL " <" ++ e ++ strL ">") ∧
    (∀ (n : Str), Authors.display ⟨[⟨n, none⟩]⟩ = n) ∧
    (∀ (a : CopyrightHolder) (as : List CopyrightHolder), a.display ≠ [] →
      Authors.display ⟨a :: as⟩ = joinW ((a :: as).map CopyrightHolder.display) (strL ", ")) := by
  refine ⟨rfl, ?_, ?_, ?_⟩
  · intro n e
    show (if ([] : Str).isEmpty then ([] : Str) else [] ++ strL ", ") ++
        CopyrightHolder.display ⟨n, some e⟩ = _
    simp [CopyrightHolder.display, List.append_assoc]
  · intro n
    show (if ([] : Str).isEmpty then ([] : Str) else [] ++ strL ", ") ++
        CopyrightHolder.display ⟨n, none⟩ = _
    simp [CopyrightHolder.display]
  · intro a as ha
    exact authors_display_cons a as ha

/-- Claim C8, witness: the amended theorem applied to a two-author list with a nonempty leading display form. -/
theorem c8_author_formatting_amended_witness :
    Authors.display ⟨[⟨strL "A", none⟩, ⟨strL "B", none⟩]⟩ =
      joinW (([⟨strL "A", none⟩, ⟨strL "B", none⟩] : List CopyrightHolder).map
        CopyrightHolder.display) (strL ", ") :=
  c8_author_formatting_amended.2.2.2 ⟨strL "A", none⟩ [⟨strL "B", none⟩] (by decide)

/-- Claim C9: building a year-varying pattern operates on a clone of the context with the year forced to the intermediate token, so it leaves the template (and its context with its fixed explicit year) unchanged, a render after building equals a render before, and the built pattern does not depend on the year stored in the template's context. -/
theorem c9_pattern_building_frame (now : Str) (t : Template) (c : Commenter) (cols : Option Nat)
    (trim : Bool) (y : Str) (hy : t.context.year = some y) :
    (build_year_varying_regexSt now t c cols trim).2 = t ∧
      (build_year_varying_regexSt now t c cols trim).2.context.year = some y ∧
      render now (build_year_varying_regexSt now t c cols trim).2 = render now t ∧
      (∀ y2 : Option Str,
        build_year_varying_regex now (setYear t y2) c cols trim =
          build_year_varying_regex now t c cols trim) :=
  ⟨rfl, hy, rfl, fun y2 => rfl⟩

/-- Claim C9, witness: the frame theorem applied at a concrete template with an explicit year. -/
theorem c9_pattern_building_frame_witness :
    (build_year_varying_regexSt (strL "2024")
        ⟨false, strL "[year] x", ⟨strL "i", ⟨[]⟩, some (strL "2020"), false⟩⟩
        (.line (strL "# ") 0) none false).2 =
      ⟨false, strL "[year] x", ⟨strL "i", ⟨[]⟩, some (strL "2020"), false⟩⟩ :=
  (c9_pattern_building_frame (strL "2024")
    ⟨false, strL "[year] x", ⟨strL "i", ⟨[]⟩, some (strL "2020"), false⟩⟩
    (.line (strL "# ") 0) none false (strL "2020") rfl).1

/-- Claim C10: render applies the three substitutions sequentially over the whole string in the order year, authors, ident; consequently a later token introduced by an earlier substitution is replaced by the later step, as the concrete instance shows: the author display "X [ident] Y" has its introduced "[ident]" replaced by the ident "Z". -/
theorem c10_sequential_substitution :
    (∀ (now : Str) (t : Template),
      render now t =
        listReplace (listReplace (listReplace (remove_column_wrapping t.content)
          (replacement_tokens t).1 (t.context.get_year now))
          (replacement_tokens t).2.1 t.context.get_authors)
          (replacement_tokens t).2.2 t.context.ident) ∧
    render (strL "2024")
        ⟨false, strL "[year] [name of author]",
          ⟨strL "Z", ⟨[⟨strL "X [ident] Y", none⟩]⟩, some (strL "2020"), false⟩⟩ =
      strL "2020 X Z Y" := by
  exact ⟨fun now t => rfl, by decide⟩

/-- Claim C4: for every template, comment style, column setting and trim choice, the pattern string assembled from regex-escaped fragments rejoined with the 4-digit-year class always compiles, so the unwrap on the regex constructor never panics. -/
theorem c4_regex_construction_safe (now : Str) (t : Template) (c : Commenter) (cols : Option Nat)
    (trim : Bool) :
    (build_year_varying_regex now t c cols trim).isSome = true := by
  unfold build_year_varying_regex
  rw [patParse_roundtrip _ (splitTok_ne_nil _ _)]
  rfl

/-- Claim C1, counterexample: a template whose content already contains the sentinel "@YR@" breaks the round trip; the pattern built by outdated_license_pattern treats the literal "@YR@" as a year position, so the header rendered with year 2020 (which keeps the literal "@YR@") does not match. -/
theorem c1_counterexample :
    (outdated_license_pattern (strL "2024")
        ⟨false, strL "[year] @YR@", ⟨strL "i", ⟨[]⟩, some (strL "1999"), false⟩⟩
        (.line (strL "# ") 0) none).map
      (fun p => patMatch p
        (commentText (.line (strL "# ") 0)
          (interpolate (strL "2024")
            ⟨false, strL "[year] @YR@", ⟨strL "i", ⟨[]⟩, some (strL "1999"), false⟩⟩
            ⟨strL "i", ⟨[]⟩, some (strL "2020"), false⟩)
          none)) = some false := by
  decide

/-! Facts about marked strings: instantiating holes commutes with every stage of the header pipeline. -/

lemma toStr_nil (yr : Str) : toStr yr [] = [] := rfl

lemma toStr_cons_ch (yr : Str) (c : Char) (m : Mstr) :
    toStr yr (MC.ch c :: m) = c :: toStr yr m := rfl

lemma toStr_cons_hole (yr : Str) (m : Mstr) :
    toStr yr (MC.hole :: m) = yr ++ toStr yr m := rfl

lemma toStr_append (yr : Str) (a b : Mstr) :
    toStr yr (a ++ b) = toStr yr a ++ toStr yr b := by
  simp [toStr]

lemma toStr_mOfStr (yr s : Str) : toStr yr (mOfStr s) = s := by
  induction s with
  | nil => rfl
  | cons c rest ih =>
    show toStr yr (MC.ch c :: mOfStr rest) = c :: rest
    rw [toStr_cons_ch, ih]

lemma mPrefixOf_iff_plain (yr : Str) (hyr : yr ≠ []) :
    ∀ (tok : Str) (m : Mstr), (∀ c ∈ tok, c ∉ yr) →
      tok.isPrefixOf (toStr yr m) = mPrefixOf tok m := by
  intro tok
  induction tok with
  | nil => intro m _; simp [List.isPrefixOf, mPrefixOf]
  | cons a tok ih =>
    intro m hdisj
    cases m with
    | nil => simp [List.isPrefixOf, mPrefixOf]
    | cons mc m =>
      cases mc with
      | ch c =>
        rw [toStr_cons_ch]
        show ((a == c) && tok.isPrefixOf (toStr yr m)) = ((a == c) && mPrefixOf tok m)
        rw [ih m (fun d hd => hdisj d (List.mem_cons_of_mem a hd))]
      | hole =>
        rw [toStr_cons_hole]
        show (a :: tok).isPrefixOf (yr ++ toStr yr m) = false
        cases yr with
        | nil => exact absurd rfl hyr
        | cons y0 yr' =>
          show ((a == y0) && _) = false
          have hne : (a == y0) = false := by
            rw [beq_eq_false_iff_ne]
            intro h
            exact hdisj a (List.mem_cons_self a tok) (h ▸ List.mem_cons_self y0 yr')
          rw [hne, Bool.false_and]

lemma mPrefixOf_drop :
    ∀ (tok : Str) (m : Mstr), mPrefixOf tok m = true →
      m = mOfStr tok ++ List.drop tok.length m := by
  intro tok
  induction tok with
  | nil => intro m _; rfl
  | cons a tok ih =>
    intro m h
    cases m with
    | nil => exact absurd h (by simp [mPrefixOf])
    | cons mc m =>
      cases mc with
      | ch c =>
        have h2 : ((a == c) && mPrefixOf tok m) = true := h
        rw [Bool.and_eq_true] at h2
        have hac : a = c := by
          have := h2.1
          exact eq_of_beq this
        subst hac
        show MC.ch a :: m = MC.ch a :: mOfStr tok ++ List.drop (tok.length + 1) (MC.ch a :: m)
        have hd : List.drop (tok.length + 1) (MC.ch a :: m) = List.drop tok.length m := rfl
        rw [hd]
        have := ih m h2.2
        conv_lhs => rw [this]
        rfl
      | hole => exact absurd h (by simp [mPrefixOf])

lemma mReplGo_fuel2 (tok r : Str) (htok : tok ≠ []) :
    ∀ (f g : Nat) (m : Mstr), m.length ≤ f → m.length ≤ g →
      mReplGo tok r f m = mReplGo tok r g m := by
  intro f
  induction f with
  | zero =>
    intro g m hf _
    have hm : m = [] := List.eq_nil_of_length_eq_zero (Nat.le_zero.mp hf)
    subst hm
    simp [mReplGo]
  | succ f ih =>
    intro g m hf hg
    cases m with
    | nil => simp [mReplGo]
    | cons mc rest =>
      cases g with
      | zero => simp at hg
      | succ g =>
        have htl : 1 ≤ tok.length := List.length_pos.mpr htok
        simp only [List.length_cons] at hf hg
        simp only [mReplGo]
        by_cases h : mPrefixOf tok (mc :: rest) = true
        · simp only [h, if_true]
          congr 1
          apply ih
          · simp only [List.length_drop, List.length_cons]
            omega
          · simp only [List.length_drop, List.length_cons]
            omega
        · simp only [h, if_false, Bool.false_eq_true]
          rw [ih g rest (by omega) (by omega)]

lemma mRepl_nil (tok r : Str) : mRepl [] tok r = [] := by
  simp [mRepl, mReplGo]

lemma mRepl_cons (tok r : Str) (htok : tok ≠ []) (mc : MC) (m : Mstr) :
    mRepl (mc :: m) tok r =
      if mPrefixOf tok (mc :: m) then
        mOfStr r ++ mRepl (List.drop tok.length (mc :: m)) tok r
      else mc :: mRepl m tok r := by
  have htl : 1 ≤ tok.length := List.length_pos.mpr htok
  show mReplGo tok r (m.length + 1) (mc :: m) = _
  simp only [mReplGo]
  by_cases h : mPrefixOf tok (mc :: m) = true
  · simp only [h, if_true]
    congr 1
    apply mReplGo_fuel2 tok r htok
    · simp only [List.length_drop, List.length_cons]
      omega
    · exact le_rfl
  · simp only [h, if_false, Bool.false_eq_true]
    rfl

lemma mRepl_commute (tok r yr : Str) (htok : tok ≠ []) (hyr : yr ≠ [])
    (hdisj : ∀ c ∈ tok, c ∉ yr) :
    ∀ (n : Nat) (m : Mstr), m.length ≤ n →
      listReplace (toStr yr m) tok r = toStr yr (mRepl m tok r) := by
  intro n
  induction n with
  | zero =>
    intro m hm
    have : m = [] := List.eq_nil_of_length_eq_zero (Nat.le_zero.mp hm)
    subst this
    rw [mRepl_nil]
    rfl
  | succ n ih =>
    intro m hm
    cases m with
    | nil =>
      rw [mRepl_nil]
      rfl
    | cons mc m' =>
      have htl : 1 ≤ tok.length := List.length_pos.mpr htok
      simp only [List.length_cons] at hm
      rw [mRepl_cons tok r htok]
      by_cases h : mPrefixOf tok (mc :: m') = true
      · simp only [h, if_true]
        have hdec := mPrefixOf_drop tok (mc :: m') h
        have hts : toStr yr (mc :: m') =
            tok ++ toStr yr (List.drop tok.length (mc :: m')) := by
          conv_lhs => rw [hdec]
          rw [toStr_append, toStr_mOfStr]
        rw [hts]
        cases htokc : tok with
        | nil => exact absurd htokc htok
        | cons t0 tk =>
          rw [← htokc]
          have hpre : tok.isPrefixOf
              (tok ++ toStr yr (List.drop tok.length (mc :: m'))) = true :=
            prefixOf_self_append _ _
          have hcons : tok ++ toStr yr (List.drop tok.length (mc :: m')) =
              t0 :: (tk ++ toStr yr (List.drop tok.length (mc :: m'))) := by
            rw [htokc]
            rfl
          rw [hcons, listReplace_cons tok r htok, ← hcons]
          simp only [hpre, if_true]
          rw [List.drop_left]
          rw [toStr_append, toStr_mOfStr]
          congr 1
          apply ih
          simp only [List.length_drop, List.length_cons]
          omega
      · simp only [h, if_false, Bool.false_eq_true]
        have hnp : tok.isPrefixOf (toStr yr (mc :: m')) = false := by
          rw [mPrefixOf_iff_plain yr hyr tok (mc :: m') hdisj]
          simp [h]
        cases mc with
        | ch c =>
          rw [toStr_cons_ch, toStr_cons_ch]
          rw [listReplace_cons tok r htok]
          rw [toStr_cons_ch] at hnp
          simp only [hnp, if_false, Bool.false_eq_true]
          rw [ih m' (by omega)]
        | hole =>
          rw [toStr_cons_hole, toStr_cons_hole]
          have hdisj2 : ∀ c ∈ yr, c ∉ tok := by
            intro c hc hc2
            exact hdisj c hc2 hc
          rw [listReplace_append_disjoint tok r htok yr _ hdisj2]
          rw [ih m' (by omega)]

lemma headI_cons_tail {α : Type} [Inhabited α] (l : List α) (h : l ≠ []) :
    l.headI :: l.tail = l := by
  cases l with
  | nil => exact absurd rfl h
  | cons a l => rfl

lemma headI_map {α β : Type} [Inhabited α] [Inhabited β] (f : α → β) (l : List α) (h : l ≠ []) :
    (l.map f).headI = f l.headI := by
  cases l with
  | nil => exact absurd rfl h
  | cons a l => rfl

lemma tail_map {α β : Type} (f : α → β) (l : List α) : (l.map f).tail = l.tail.map f := by
  cases l <;> rfl

lemma splitKeep_ne_nil (p : Char → Bool) : ∀ s, splitKeep p s ≠ [] := by
  intro s
  cases s with
  | nil => simp [splitKeep]
  | cons c rest =>
    simp only [splitKeep]
    by_cases h : p c = true
    · simp [h]
    · simp only [h, if_false, Bool.false_eq_true]
      rcases hL : splitKeep p rest with _ | ⟨w, ws⟩ <;> simp

lemma splitKeep_cons_sep (p : Char → Bool) (c : Char) (s : Str) (h : p c = true) :
    splitKeep p (c :: s) = [] :: splitKeep p s := by
  simp [splitKeep, h]

lemma splitKeep_cons_nosep (p : Char → Bool) (c : Char) (s : Str) (h : p c = false) :
    splitKeep p (c :: s) = (c :: (splitKeep p s).headI) :: (splitKeep p s).tail := by
  rcases hL : splitKeep p s with _ | ⟨w, ws⟩
  · exact absurd hL (splitKeep_ne_nil p s)
  · simp [splitKeep, h, hL]

lemma splitKeep_append_nosep (p : Char → Bool) :
    ∀ (ys s : Str), (∀ c ∈ ys, p c = false) →
      splitKeep p (ys ++ s) = (ys ++ (splitKeep p s).headI) :: (splitKeep p s).tail := by
  intro ys
  induction ys with
  | nil =>
    intro s _
    simp only [List.nil_append]
    exact (headI_cons_tail _ (splitKeep_ne_nil p s)).symm
  | cons y ys ih =>
    intro s hys
    rw [List.cons_append, splitKeep_cons_nosep p y _ (hys y (List.mem_cons_self y ys))]
    rw [ih s (fun c hc => hys c (List.mem_cons_of_mem y hc))]
    rfl

lemma mSplitKeep_ne_nil (q : MC → Bool) : ∀ m, mSplitKeep q m ≠ [] := by
  intro m
  cases m with
  | nil => simp [mSplitKeep]
  | cons mc rest =>
    simp only [mSplitKeep]
    by_cases h : q mc = true
    · simp [h]
    · simp only [h, if_false, Bool.false_eq_true]
      rcases hL : mSplitKeep q rest with _ | ⟨w, ws⟩ <;> simp

lemma mSplitKeep_cons_sep (q : MC → Bool) (mc : MC) (m : Mstr) (h : q mc = true) :
    mSplitKeep q (mc :: m) = [] :: mSplitKeep q m := by
  simp [mSplitKeep, h]

lemma mSplitKeep_cons_nosep (q : MC → Bool) (mc : MC) (m : Mstr) (h : q mc = false) :
    mSplitKeep q (mc :: m) = (mc :: (mSplitKeep q m).headI) :: (mSplitKeep q m).tail := by
  rcases hL : mSplitKeep q m with _ | ⟨w, ws⟩
  · exact absurd hL (mSplitKeep_ne_nil q m)
  · simp [mSplitKeep, h, hL]

lemma splitKeep_commute (p : Char → Bool) (q : MC → Bool) (yr : Str) (hyr : yr ≠ [])
    (hq : ∀ c, q (MC.ch c) = p c) (hhole : q MC.hole = false)
    (hyrp : ∀ c ∈ yr, p c = false) :
    ∀ m, splitKeep p (toStr yr m) = (mSplitKeep q m).map (toStr yr) := by
  intro m
  induction m with
  | nil => rfl
  | cons mc m ih =>
    cases mc with
    | ch c =>
      rw [toStr_cons_ch]
      by_cases hpc : p c = true
      · rw [splitKeep_cons_sep p c _ hpc, mSplitKeep_cons_sep q _ _ (by rw [hq]; exact hpc)]
        rw [List.map_cons, ih]
        rfl
      · have hpc2 : p c = false := by simp [hpc]
        rw [splitKeep_cons_nosep p c _ hpc2,
          mSplitKeep_cons_nosep q _ _ (by rw [hq]; exact hpc2)]
        rw [List.map_cons, ih]
        rw [headI_map _ _ (mSplitKeep_ne_nil q m), tail_map]
        rw [toStr_cons_ch]
    | hole =>
      rw [toStr_cons_hole]
      rw [splitKeep_append_nosep p yr _ hyrp]
      rw [mSplitKeep_cons_nosep q _ _ hhole]
      rw [List.map_cons, ih]
      rw [headI_map _ _ (mSplitKeep_ne_nil q m), tail_map]
      rw [toStr_cons_hole]

lemma toStr_isEmpty (yr : Str) (hyr : yr ≠ []) (m : Mstr) :
    (toStr yr m).isEmpty = m.isEmpty := by
  cases m with
  | nil => rfl
  | cons mc m =>
    cases mc with
    | ch c => rw [toStr_cons_ch]; rfl
    | hole =>
      rw [toStr_cons_hole]
      cases yr with
      | nil => exact absurd rfl hyr
      | cons y0 yr' => rfl

lemma splitDrop_commute (p : Char → Bool) (q : MC → Bool) (yr : Str) (hyr : yr ≠ [])
    (hq : ∀ c, q (MC.ch c) = p c) (hhole : q MC.hole = false)
    (hyrp : ∀ c ∈ yr, p c = false) (m : Mstr) :
    splitDrop p (toStr yr m) = (mSplitDrop q m).map (toStr yr) := by
  unfold splitDrop mSplitDrop
  rw [splitKeep_commute p q yr hyr hq hhole hyrp m]
  rw [List.filter_map]
  congr 1
  apply List.filter_congr
  intro w _
  simp only [Function.comp_apply]
  rw [toStr_isEmpty yr hyr w]

lemma greedyGo_map {α β : Type} (f : α → β) (len1 : β → Nat) (len2 : α → Nat)
    (hlen : ∀ a, len1 (f a) = len2 a) (w : Nat) :
    ∀ (xs cur : List α) (n : Nat),
      greedyGo len1 w (cur.map f) n (xs.map f) = (greedyGo len2 w cur n xs).map (List.map f) := by
  intro xs
  induction xs with
  | nil =>
    intro cur n
    simp [greedyGo, List.map_reverse]
  | cons x xs ih =>
    intro cur n
    simp only [List.map_cons, greedyGo, hlen x]
    by_cases h : n + 1 + len2 x ≤ w
    · simp only [h, if_true]
      exact ih (x :: cur) (n + 1 + len2 x)
    · simp only [h, if_false]
      have hx : ([f x] : List β) = List.map f [x] := rfl
      rw [hx, ih [x] (len2 x)]
      simp [List.map_reverse]

lemma greedyBy_map {α β : Type} (f : α → β) (len1 : β → Nat) (len2 : α → Nat)
    (hlen : ∀ a, len1 (f a) = len2 a) (w : Nat) (xs : List α) :
    greedyBy len1 w (xs.map f) = (greedyBy len2 w xs).map (List.map f) := by
  cases xs with
  | nil => rfl
  | cons x xs =>
    simp only [List.map_cons, greedyBy, hlen x]
    exact greedyGo_map f len1 len2 hlen w xs [x] (len2 x)

lemma toStr_mJoinW (yr : Str) :
    ∀ (ms : List Mstr) (sep : Mstr),
      toStr yr (mJoinW ms sep) = joinW (ms.map (toStr yr)) (toStr yr sep) := by
  intro ms
  induction ms with
  | nil => intro sep; rfl
  | cons m0 ms ih =>
    intro sep
    cases ms with
    | nil => rfl
    | cons m1 ms' =>
      show toStr yr (m0 ++ sep ++ mJoinW (m1 :: ms') sep) = _
      rw [toStr_append, toStr_append, ih sep]
      rfl

lemma toStr_length (yr : Str) (h4 : yr.length = 4) :
    ∀ m : Mstr, (toStr yr m).length = mLength m := by
  intro m
  induction m with
  | nil => rfl
  | cons mc m ih =>
    cases mc with
    | ch c =>
      rw [toStr_cons_ch]
      show (toStr yr m).length + 1 = 1 + mLength m
      rw [ih]
      omega
    | hole =>
      rw [toStr_cons_hole]
      show (yr ++ toStr yr m).length = 4 + mLength m
      rw [List.length_append, h4, ih]

lemma wrapLine_commute (yr : Str) (hyr : yr ≠ []) (h4 : yr.length = 4)
    (hws : ∀ c ∈ yr, isWsChar c = false) (w : Nat) (line : Mstr) :
    wrapLine w (toStr yr line) = toStr yr (mWrapLine w line) := by
  unfold wrapLine mWrapLine
  rw [splitDrop_commute isWsChar mIsWs yr hyr (fun c => rfl) rfl hws line]
  rw [greedyBy_map (toStr yr) List.length mLength (toStr_length yr h4) w]
  rw [toStr_mJoinW]
  have hsep : toStr yr [MC.ch '\n'] = ['\n'] := rfl
  rw [hsep, List.map_map, List.map_map]
  congr 1
  apply List.map_congr_left
  intro g _
  simp only [Function.comp_apply]
  rw [toStr_mJoinW]
  rfl

lemma wrapText_commute (yr : Str) (hyr : yr ≠ []) (h4 : yr.length = 4)
    (hws : ∀ c ∈ yr, isWsChar c = false) (cols : Option Nat) (m : Mstr) :
    wrapText cols (toStr yr m) = toStr yr (mWrapText cols m) := by
  cases cols with
  | none => rfl
  | some w =>
    have hnl : ∀ c ∈ yr, ((c == '\n') : Bool) = false := by
      intro c hc
      rw [beq_eq_false_iff_ne]
      intro h
      subst h
      exact absurd (hws '\n' hc) (by decide)
    show joinW ((splitKeep (fun c => c == '\n') (toStr yr m)).map (wrapLine w)) ['\n'] =
      toStr yr (mJoinW ((mSplitKeep mIsNl m).map (mWrapLine w)) [MC.ch '\n'])
    rw [splitKeep_commute (fun c => c == '\n') mIsNl yr hyr (fun c => rfl) rfl hnl m]
    rw [toStr_mJoinW]
    have hsep : toStr yr [MC.ch '\n'] = ['\n'] := rfl
    rw [hsep, List.map_map, List.map_map]
    congr 1
    apply List.map_congr_left
    intro l _
    simp only [Function.comp_apply]
    exact wrapLine_commute yr hyr h4 hws w l

lemma toStr_replicate (yr : Str) (n : Nat) :
    toStr yr (List.replicate n (MC.ch '\n')) = List.replicate n '\n' := by
  induction n with
  | zero => rfl
  | succ n ih => simp [List.replicate_succ, toStr_cons_ch, ih]

lemma toStr_flatten (yr : Str) (L : List Mstr) :
    toStr yr L.flatten = (L.map (toStr yr)).flatten := by
  induction L with
  | nil => rfl
  | cons a L ih => simp [List.flatten_cons, toStr_append, ih]

lemma commentText_commute (yr : Str) (hyr : yr ≠ []) (h4 : yr.length = 4)
    (hws : ∀ c ∈ yr, isWsChar c = false) (c : Commenter) (cols : Option Nat) (m : Mstr) :
    commentText c (toStr yr m) cols = toStr yr (mCommentText c m cols) := by
  have hnl : ∀ c0 ∈ yr, ((c0 == '\n') : Bool) = false := by
    intro c0 hc
    rw [beq_eq_false_iff_ne]
    intro h
    subst h
    exact absurd (hws '\n' hc) (by decide)
  cases c with
  | line dec trailing =>
    show (((splitKeep (fun ch0 => ch0 == '\n') (wrapText cols (toStr yr m))).map
        (fun l => dec ++ l ++ ['\n'])).flatten) ++ List.replicate trailing '\n' =
      toStr yr ((((mSplitKeep mIsNl (mWrapText cols m)).map
        (fun l => mOfStr dec ++ l ++ [MC.ch '\n'])).flatten)
        ++ List.replicate trailing (MC.ch '\n'))
    rw [wrapText_commute yr hyr h4 hws cols m]
    rw [splitKeep_commute (fun ch0 => ch0 == '\n') mIsNl yr hyr (fun c0 => rfl) rfl hnl]
    rw [toStr_append, toStr_flatten, toStr_replicate, List.map_map, List.map_map]
    congr 2
    apply List.map_congr_left
    intro l _
    simp only [Function.comp_apply]
    rw [toStr_append, toStr_append, toStr_mOfStr]
    rfl
  | block opDelim clDelim lead trailing =>
    show opDelim ++ ['\n'] ++ (((splitKeep (fun ch0 => ch0 == '\n')
        (wrapText cols (toStr yr m))).map (fun l => lead ++ l ++ ['\n'])).flatten)
        ++ clDelim ++ ['\n'] ++ List.replicate trailing '\n' =
      toStr yr (mOfStr opDelim ++ [MC.ch '\n'] ++ (((mSplitKeep mIsNl (mWrapText cols m)).map
        (fun l => mOfStr lead ++ l ++ [MC.ch '\n'])).flatten)
        ++ mOfStr clDelim ++ [MC.ch '\n'] ++ List.replicate trailing (MC.ch '\n'))
    rw [wrapText_commute yr hyr h4 hws cols m]
    rw [splitKeep_commute (fun ch0 => ch0 == '\n') mIsNl yr hyr (fun c0 => rfl) rfl hnl]
    have hsep : toStr yr [MC.ch '\n'] = ['\n'] := rfl
    simp only [toStr_append, toStr_mOfStr, toStr_flatten, toStr_replicate, hsep, List.map_map]
    have hmap : List.map ((fun l => lead ++ l ++ ['\n']) ∘ toStr yr)
          (mSplitKeep mIsNl (mWrapText cols m)) =
        List.map (toStr yr ∘ fun l => mOfStr lead ++ l ++ [MC.ch '\n'])
          (mSplitKeep mIsNl (mWrapText cols m)) := by
      apply List.map_congr_left
      intro l _
      simp only [Function.comp_apply]
      rw [toStr_append, toStr_append, toStr_mOfStr]
      rfl
    rw [hmap]

lemma mRepl_commute_top (tok r yr : Str) (htok : tok ≠ []) (hyr : yr ≠ [])
    (hdisj : ∀ c ∈ tok, c ∉ yr) (m : Mstr) :
    listReplace (toStr yr m) tok r = toStr yr (mRepl m tok r) :=
  mRepl_commute tok r yr htok hyr hdisj m.length m le_rfl

lemma toStr_hole_join (yr : Str) (ps : List Str) :
    toStr yr (mJoinW (ps.map mOfStr) [MC.hole]) = joinW ps yr := by
  rw [toStr_mJoinW, List.map_map]
  have h1 : toStr yr [MC.hole] = yr := by simp [toStr]
  rw [h1]
  congr 1
  have h2 : (toStr yr ∘ mOfStr) = fun x : Str => x := by
    funext x
    simp [Function.comp_apply, toStr_mOfStr]
  rw [h2, List.map_id']

lemma pipeline_eq (now yr : Str) (t : Template) (c : Commenter) (cols : Option Nat)
    (hyr : yr ≠ []) (h4 : yr.length = 4) (hws : ∀ c0 ∈ yr, isWsChar c0 = false)
    (hda : ∀ c0 ∈ (replacement_tokens t).2.1, c0 ∉ yr)
    (hdi : ∀ c0 ∈ (replacement_tokens t).2.2, c0 ∉ yr) :
    commentText c (interpolate now t { t.context with year := some yr }) cols =
      toStr yr (markedHeader t c cols) := by
  obtain ⟨n1, n2, n3⟩ := replacement_tokens_ne_nil t
  have hinterp : interpolate now t { t.context with year := some yr } =
      listReplace (listReplace (listReplace (remove_column_wrapping t.content)
        (replacement_tokens t).1 yr)
        (replacement_tokens t).2.1 t.context.get_authors)
        (replacement_tokens t).2.2 t.context.ident := rfl
  rw [hinterp]
  rw [listReplace_eq_joinW_splitTok (remove_column_wrapping t.content)
    (replacement_tokens t).1 yr n1]
  rw [← toStr_hole_join yr (splitTok (remove_column_wrapping t.content)
    (replacement_tokens t).1)]
  rw [mRepl_commute_top (replacement_tokens t).2.1 t.context.get_authors yr n2 hyr hda]
  rw [mRepl_commute_top (replacement_tokens t).2.2 t.context.ident yr n3 hyr hdi]
  rw [commentText_commute yr hyr h4 hws c cols]
  rfl

lemma sent_ne_nil : INTERMEDIATE_YEAR_TOKEN ≠ [] := by decide

lemma sent_len4 : INTERMEDIATE_YEAR_TOKEN.length = 4 := by decide

lemma sent_not_ws : ∀ c ∈ INTERMEDIATE_YEAR_TOKEN, isWsChar c = false := by decide

lemma tokens_no_digit (t : Template) :
    (∀ c ∈ (replacement_tokens t).2.1, c.isDigit = false) ∧
      (∀ c ∈ (replacement_tokens t).2.2, c.isDigit = false) := by
  unfold replacement_tokens
  split_ifs <;> exact ⟨by decide, by decide⟩

lemma tokens_sent_disj (t : Template) :
    (∀ c ∈ (replacement_tokens t).2.1, c ∉ INTERMEDIATE_YEAR_TOKEN) ∧
      (∀ c ∈ (replacement_tokens t).2.2, c ∉ INTERMEDIATE_YEAR_TOKEN) := by
  unfold replacement_tokens
  split_ifs <;> exact ⟨by decide, by decide⟩

lemma digit_not_ws (c : Char) (h : c.isDigit = true) : isWsChar c = false := by
  by_contra hws
  simp only [Bool.not_eq_false] at hws
  simp only [isWsChar, Bool.or_eq_true, beq_iff_eq] at hws
  rcases hws with ((h1 | h1) | h1) | h1 <;> (subst h1; exact absurd h (by decide))

lemma mFrags_ne_nil : ∀ m : Mstr, mFrags m ≠ [] := by
  intro m
  cases m with
  | nil => simp [mFrags]
  | cons mc rest =>
    cases mc with
    | hole => simp [mFrags]
    | ch c =>
      simp only [mFrags]
      rcases mFrags rest with _ | ⟨w, ws⟩ <;> simp

lemma joinW_cons_head (c : Char) (w : Str) (ws : List Str) (sep : Str) :
    joinW ((c :: w) :: ws) sep = c :: joinW (w :: ws) sep := by
  cases ws with
  | nil => rfl
  | cons v ws' => simp [joinW, List.cons_append]

lemma toStr_eq_joinW_mFrags (yr : Str) : ∀ m : Mstr, toStr yr m = joinW (mFrags m) yr := by
  intro m
  induction m with
  | nil => rfl
  | cons mc rest ih =>
    cases mc with
    | hole =>
      rw [toStr_cons_hole, ih]
      show _ = joinW ([] :: mFrags rest) yr
      rcases hF : mFrags rest with _ | ⟨w, ws⟩
      · exact absurd hF (mFrags_ne_nil rest)
      · rw [joinW]
        simp
    | ch c =>
      rw [toStr_cons_ch, ih]
      show _ = joinW (mFrags (MC.ch c :: rest)) yr
      rcases hF : mFrags rest with _ | ⟨w, ws⟩
      · exact absurd hF (mFrags_ne_nil rest)
      · have hfc : mFrags (MC.ch c :: rest) = (c :: w) :: ws := by
          simp [mFrags, hF]
        rw [hfc, joinW_cons_head]

lemma four_of (Y : Str) (h4 : Y.length = 4) (hd : ∀ c ∈ Y, c.isDigit = true) (z : Str) :
    fourDigits (Y ++ z) = true := by
  rcases Y with _ | ⟨a, _ | ⟨b, _ | ⟨c0, _ | ⟨d, rest⟩⟩⟩⟩ <;> simp at h4
  have hrest : rest = [] := by simpa using h4
  subst hrest
  show fourDigits (a :: b :: c0 :: d :: z) = true
  have ha := hd a (by simp)
  have hb := hd b (by simp)
  have hc := hd c0 (by simp)
  have hdd := hd d (by simp)
  simp [fourDigits, ha, hb, hc, hdd]

lemma matchFrom_joinW (Y : Str) (h4 : Y.length = 4) (hd : ∀ c ∈ Y, c.isDigit = true) :
    ∀ fs : List Str, fs ≠ [] → matchFrom fs (joinW fs Y) = true := by
  intro fs
  induction fs with
  | nil => intro h; exact absurd rfl h
  | cons f rest ih =>
    intro _
    cases rest with
    | nil =>
      show (f.isPrefixOf (joinW [f] Y)) = true
      have hj : joinW [f] Y = f ++ [] := by simp [joinW]
      rw [hj]
      exact prefixOf_self_append f []
    | cons g rest2 =>
      have hj : joinW (f :: g :: rest2) Y = f ++ (Y ++ joinW (g :: rest2) Y) := by
        rw [joinW]
        simp [List.append_assoc]
      rw [hj]
      show (f.isPrefixOf (f ++ (Y ++ joinW (g :: rest2) Y)) &&
        fourDigits (List.drop f.length (f ++ (Y ++ joinW (g :: rest2) Y))) &&
        matchFrom (g :: rest2)
          (List.drop 4 (List.drop f.length (f ++ (Y ++ joinW (g :: rest2) Y))))) = true
      rw [prefixOf_self_append, List.drop_left]
      rw [four_of Y h4 hd]
      have hd4 : List.drop 4 (Y ++ joinW (g :: rest2) Y) = joinW (g :: rest2) Y := by
        have h44 : (4 : Nat) = Y.length := h4.symm
        rw [h44, List.drop_left]
      rw [hd4, ih (by simp)]
      rfl

lemma patMatch_of_matchFrom (p : List Str) (s : Str) (h : matchFrom p s = true) :
    patMatch p s = true := by
  cases s with
  | nil =>
    rw [patMatch, h]
    rfl
  | cons c rest =>
    rw [patMatch, h]
    rfl

/-- The marked header instantiated with the sentinel is exactly the commented sentinel rendering: the hypothesis of the amended round-trip theorem states that this string, split on the sentinel, has no occurrences beyond the injected ones. -/
lemma sent_pipeline_eq (now : Str) (t : Template) (c : Commenter) (cols : Option Nat) :
    commentText c (interpolate now t { t.context with year := some INTERMEDIATE_YEAR_TOKEN }) cols =
      toStr INTERMEDIATE_YEAR_TOKEN (markedHeader t c cols) :=
  pipeline_eq now INTERMEDIATE_YEAR_TOKEN t c cols sent_ne_nil sent_len4 sent_not_ws
    (fun c0 hc => (tokens_sent_disj t).1 c0 hc)
    (fun c0 hc => (tokens_sent_disj t).2 c0 hc)

/-- Claim C1, amended: for every template, context, comment style, column setting and year Y of four decimal digits, provided the sentinel occurs in the commented sentinel rendering only at the injected year positions (splitting that rendering on the sentinel recovers the canonical fragments), the header rendered with year Y and commented matches the pattern built by outdated_license_pattern. -/
theorem c1_round_trip_amended (now Y : Str) (t : Template) (c : Commenter) (cols : Option Nat)
    (h4 : Y.length = 4) (hdig : ∀ c0 ∈ Y, c0.isDigit = true)
    (hsplit : splitTok
        (commentText c
          (interpolate now t { t.context with year := some INTERMEDIATE_YEAR_TOKEN }) cols)
        INTERMEDIATE_YEAR_TOKEN = sentinelFrags t c cols) :
    (outdated_license_pattern now t c cols).map
      (fun p => patMatch p
        (commentText c (interpolate now t { t.context with year := some Y }) cols)) =
      some true := by
  have hyr : Y ≠ [] := by
    intro h
    rw [h] at h4
    simp at h4
  have hws : ∀ c0 ∈ Y, isWsChar c0 = false := fun c0 hc => digit_not_ws c0 (hdig c0 hc)
  have hda : ∀ c0 ∈ (replacement_tokens t).2.1, c0 ∉ Y := by
    intro c0 hc hmem
    have h1 := (tokens_no_digit t).1 c0 hc
    have h2 := hdig c0 hmem
    rw [h1] at h2
    exact absurd h2 (by simp)
  have hdi : ∀ c0 ∈ (replacement_tokens t).2.2, c0 ∉ Y := by
    intro c0 hc hmem
    have h1 := (tokens_no_digit t).2 c0 hc
    have h2 := hdig c0 hmem
    rw [h1] at h2
    exact absurd h2 (by simp)
  have hbuild : outdated_license_pattern now t c cols =
      some (splitTok
        (commentText c
          (interpolate now t { t.context with year := some INTERMEDIATE_YEAR_TOKEN }) cols)
        INTERMEDIATE_YEAR_TOKEN) := by
    show patParse (joinW ((splitTok
        (commentText c
          (interpolate now t { t.context with year := some INTERMEDIATE_YEAR_TOKEN }) cols)
        INTERMEDIATE_YEAR_TOKEN).map regexEscape) YEAR_RE) = _
    exact patParse_roundtrip _ (splitTok_ne_nil _ _)
  rw [hbuild]
  have hCy : commentText c (interpolate now t { t.context with year := some Y }) cols =
      joinW (sentinelFrags t c cols) Y := by
    rw [pipeline_eq now Y t c cols hyr h4 hws hda hdi]
    exact toStr_eq_joinW_mFrags Y (markedHeader t c cols)
  show some (patMatch _ _) = some true
  rw [hsplit, hCy]
  congr 1
  exact patMatch_of_matchFrom _ _
    (matchFrom_joinW Y h4 hdig (sentinelFrags t c cols) (mFrags_ne_nil _))

/-- Claim C1, witness: the amended round-trip theorem applied at a concrete template, line-comment style and year 2020, discharging every hypothesis by evaluation. -/
theorem c1_round_trip_amended_witness :
    (outdated_license_pattern (strL "2024")
        ⟨false, strL "[year] x", ⟨strL "i", ⟨[]⟩, some (strL "1999"), false⟩⟩
        (.line (strL "# ") 0) none).map
      (fun p => patMatch p
        (commentText (.line (strL "# ") 0)
          (interpolate (strL "2024")
            ⟨false, strL "[year] x", ⟨strL "i", ⟨[]⟩, some (strL "1999"), false⟩⟩
            { (⟨false, strL "[year] x", ⟨strL "i", ⟨[]⟩, some (strL "1999"), false⟩⟩ :
                Template).context with year := some (strL "2020") })
          none)) = some true :=
  c1_round_trip_amended (strL "2024") (strL "2020")
    ⟨false, strL "[year] x", ⟨strL "i", ⟨[]⟩, some (strL "1999"), false⟩⟩
    (.line (strL "# ") 0) none (by decide) (by decide) (by decide)
